import Mathlib

/-!
Shallow embedding of `src/fetch_indices.js` (index-constituent exporter).

Modelling conventions:
  * JS numbers are modelled as `ℚ`; a field that may be absent or non-numeric
    (`typeof x === 'number'` guards in the source) is an `Option ℚ`, with
    `none` for "absent / not a number" and `some x` for a numeric value.
  * A JS object used as a string-keyed dictionary is an association list
    with JS-object update semantics: assigning to an existing key updates it
    in place, assigning to a fresh key appends it (`objSet` / `objGet`).
  * The network is external: the Yahoo quote endpoint is a parameter
    `provider : Nat → List String → Except String (List (Option Quote))`,
    taking the 0-based batch index and the transformed symbols of the batch,
    returning either a thrown error (`Except.error`) or the quote array
    (already in the array form the source normalises to on line 110;
    `none` entries model falsy quotes skipped by `if (!quote) continue`).
  * An HTML document is modelled by what cheerio exposes of it to
    `parseConstituentTable`: the list of its tables in document order, each
    table the list of its `tr` rows, each row the list of the raw text of its
    `th`/`td` cells (trimming is performed by the embedded code itself, as in
    the source).
-/

set_option autoImplicit false
set_option maxRecDepth 8000

namespace FetchIndices

/-- A JS object used as a string-keyed dictionary: association list, first
component is the key. -/
abbrev Obj (β : Type) := List (String × β)

/-- JS property write `o[k] = v`: update in place when the key exists,
append otherwise. -/
def objSet {β : Type} : Obj β → String → β → Obj β
  | [], k, v => [(k, v)]
  | (k', v') :: rest, k, v =>
      if k' = k then (k', v) :: rest else (k', v') :: objSet rest k v

/-- JS property read `o[k]`: `none` models `undefined`. -/
def objGet {β : Type} : Obj β → String → Option β
  | [], _ => none
  | (k', v) :: rest, k => if k' = k then some v else objGet rest k

/-- The keys of a JS object, in insertion order. -/
def objKeys {β : Type} (m : Obj β) : List String :=
  m.map (fun p => p.1)

/-- One quote record as returned by the provider, restricted to the four
fields requested on line 108 of the source. -/
structure Quote where
  symbol : String
  regularMarketPrice : Option ℚ
  dividendYield : Option ℚ
  trailingAnnualDividendYield : Option ℚ
deriving DecidableEq, Repr

/-- The per-symbol result record `{price, dividendYield}` built on
lines 120-123 of the source; both fields are always present. -/
structure Pricing where
  price : Option ℚ
  dividendYield : Option ℚ
deriving DecidableEq, Repr

/-- The `{price: null, dividendYield: null}` record. -/
def nullPricing : Pricing := ⟨none, none⟩

/-- The `results` object of `fetchQuoteData`. -/
abbrev QuoteMap := Obj Pricing

/-- The external quote endpoint: batch index, transformed symbols of the
batch, and either a thrown error or the returned quote array. -/
abbrev Provider := Nat → List String → Except String (List (Option Quote))

/-- The loop of `chunkArray` (source lines 86-88), written with explicit
fuel so that it is structurally recursive; `chunkArray` supplies
`items.length` as fuel, which is enough for every positive `size` (the
program only ever passes 50). -/
def chunkArrayGo {α : Type} (size : Nat) : Nat → List α → List (List α)
  | _, [] => []
  | 0, _ :: _ => []
  | fuel + 1, x :: xs => (x :: xs).take size :: chunkArrayGo size fuel ((x :: xs).drop size)

/-- Source lines 84-90, `chunkArray`: split a list into consecutive slices
of `size` elements (the final slice may be shorter). -/
def chunkArray {α : Type} (items : List α) (size : Nat) : List (List α) :=
  chunkArrayGo size items.length items

/-- Character-level ASCII lower-casing, modelling what JS `toLowerCase()`
does on the ASCII header texts this program compares. -/
def jsCharToLower (c : Char) : Char :=
  if 65 ≤ c.toNat ∧ c.toNat ≤ 90 then Char.ofNat (c.toNat + 32) else c

/-- JS `String.prototype.toLowerCase()`, modelled character-wise. -/
def jsToLower (s : String) : String :=
  ⟨s.data.map jsCharToLower⟩

/-- JS `String.prototype.trim()`: strip leading and trailing whitespace. -/
def jsTrim (s : String) : String :=
  ⟨((s.data.dropWhile Char.isWhitespace).reverse.dropWhile Char.isWhitespace).reverse⟩

/-- Source lines 92-94, `toYahooSymbol`: `symbol.replace(/\./g, '-')`,
a character-wise replacement of every dot by a dash. -/
def toYahooSymbol (symbol : String) : String :=
  ⟨symbol.data.map (fun c => if c = '.' then '-' else c)⟩

/-- Lookup in a JS `Map` built from an entry list (later entries with the
same key overwrite earlier ones, so the last matching entry wins). -/
def mapGetLast : List (String × String) → String → Option String
  | [], _ => none
  | (k', v) :: rest, k =>
      match mapGetLast rest k with
      | some w => some w
      | none => if k' = k then some v else none

/-- Source lines 115-123: resolve one quote to a `Pricing` record.
The raw yield is `dividendYield` when numeric, else
`trailingAnnualDividendYield`; a numeric raw yield is multiplied by 100;
the price is `regularMarketPrice` when numeric, else null. -/
def resolveQuote (q : Quote) : Pricing :=
  let rawYield :=
    match q.dividendYield with
    | some y => some y
    | none => q.trailingAnnualDividendYield
  { price := q.regularMarketPrice
    dividendYield := rawYield.map (fun y => y * 100) }

/-- Source line 114: `symbolMap.get(quote.symbol) ?? quote.symbol`. -/
def origSymbol (symbolMap : List (String × String)) (q : Quote) : String :=
  (mapGetLast symbolMap q.symbol).getD q.symbol

/-- Source lines 112-124: the `for (const quote of quoteArray)` loop; falsy
quotes (`none`) are skipped, others are stored under the mapped-back
symbol. -/
def applyQuotes (symbolMap : List (String × String)) : QuoteMap → List (Option Quote) → QuoteMap
  | results, [] => results
  | results, none :: rest => applyQuotes symbolMap results rest
  | results, some q :: rest =>
      applyQuotes symbolMap (objSet results (origSymbol symbolMap q) (resolveQuote q)) rest

/-- Source lines 129-133: the backfill loop assigning
`{price: null, dividendYield: null}` to every chunk symbol that has no
entry yet. -/
def backfillChunk : QuoteMap → List String → QuoteMap
  | results, [] => results
  | results, s :: rest =>
      backfillChunk
        (if (objGet results s).isSome then results else objSet results s nullPricing) rest

/-- Source lines 102-133: the body of the `for (const chunk of chunks)`
loop: transform the chunk, build the position-based lookup map, apply the
provider's quotes when the call succeeds (a thrown call leaves `results`
untouched apart from the backfill), then backfill the chunk. -/
def processChunk (call : List String → Except String (List (Option Quote)))
    (results : QuoteMap) (chunk : List String) : QuoteMap :=
  let yahooSymbols := chunk.map toYahooSymbol
  let symbolMap := List.zip yahooSymbols chunk
  let afterQuotes :=
    match call yahooSymbols with
    | Except.error _ => results
    | Except.ok quoteArray => applyQuotes symbolMap results quoteArray
  backfillChunk afterQuotes chunk

/-- The chunk loop of `fetchQuoteData`, threading the 0-based batch index
so the external provider may behave differently per batch. -/
def runChunks (provider : Provider) : Nat → QuoteMap → List (List String) → QuoteMap
  | _, results, [] => results
  | i, results, chunk :: rest =>
      runChunks provider (i + 1) (processChunk (provider i) results chunk) rest

/-- Source lines 96-137, `fetchQuoteData`: empty input short-circuits to an
empty mapping; otherwise the symbol list is chunked into batches of 50 and
each batch is processed in order. -/
def fetchQuoteData (provider : Provider) (symbols : List String) : QuoteMap :=
  if symbols.isEmpty then [] else runChunks provider 0 [] (chunkArray symbols 50)

/-- One HTML table as cheerio exposes it to the scraper: the list of its
`tr` rows, each row the list of the raw text contents of its `th`/`td`
cells. -/
structure HtmlTable where
  rows : List (List String)
deriving DecidableEq, Repr

/-- An HTML document, reduced to its tables in document order. -/
abbrev HtmlDoc := List HtmlTable

/-- A scraped row: a JS object mapping column header to trimmed cell
text. -/
abbrev RawRow := Obj String

/-- Source lines 39-45: the trimmed texts of the first row's cells, used as
column headers (an absent first row gives an empty header list). -/
def tableHeaders (t : HtmlTable) : List String :=
  (t.rows.head?.getD []).map jsTrim

/-- Source line 62: `headers[cellIndex] ?? column_cellIndex` — the header a
cell at a given index is stored under, with the synthesized placeholder
name for cells beyond the header row. -/
def headerAt (headers : List String) (i : Nat) : String :=
  (headers.get? i).getD ("column_" ++ toString i)

/-- Source lines 55-64 (the `forEach` with running cell index): build the
row's JS object, assigning each trimmed cell text to its header. -/
def buildEntryAux (headers : List String) : Nat → RawRow → List String → RawRow
  | _, entry, [] => entry
  | i, entry, c :: rest =>
      buildEntryAux headers (i + 1) (objSet entry (headerAt headers i) (jsTrim c)) rest

/-- The complete row object of source lines 55-64, starting from the empty
object and cell index 0. -/
def buildEntry (headers : List String) (cells : List String) : RawRow :=
  buildEntryAux headers 0 [] cells

/-- Source line 47: `headers.findIndex(h => h.toLowerCase() === 'symbol')`,
as an `Option Nat` (`none` models the -1 result). -/
def findSymbolIndex : List String → Option Nat
  | [] => none
  | h :: rest =>
      if jsToLower h == "symbol" then some 0 else (findSymbolIndex rest).map (· + 1)

/-- Source lines 55-67: turn one data row into its entry object, keeping it
only when the value stored under the Symbol header is truthy (present and
non-empty). -/
def rowEntry? (headers : List String) (symbolHeader : String) (cells : List String) :
    Option RawRow :=
  let entry := buildEntry headers cells
  match objGet entry symbolHeader with
  | some v => if v = "" then none else some entry
  | none => none

/-- Source lines 38-73, one iteration of the table loop: `none` when the
table is skipped (no Symbol header, or no kept data row), otherwise the
kept row objects. -/
def processTable (t : HtmlTable) : Option (List RawRow) :=
  match findSymbolIndex (tableHeaders t) with
  | none => none
  | some symbolIndex =>
      let symbolHeader := ((tableHeaders t).get? symbolIndex).getD ""
      let rows := (t.rows.drop 1).filterMap (rowEntry? (tableHeaders t) symbolHeader)
      if rows.isEmpty then none else some rows

/-- The message of the error thrown on source line 76. -/
def NoTableFoundError : String :=
  "No table with a Symbol column was found in the provided HTML"

/-- Source lines 34-77, `parseConstituentTable`: return the kept rows of the
first table that yields any, else throw. -/
def parseConstituentTable : HtmlDoc → Except String (List RawRow)
  | [] => Except.error NoTableFoundError
  | t :: rest =>
      match processTable t with
      | some rows => Except.ok rows
      | none => parseConstituentTable rest

/-- Source lines 146 and 150: `String(row.Symbol).trim()`; an absent
`Symbol` property stringifies to "undefined". -/
def rowSymbol (row : RawRow) : String :=
  jsTrim ((objGet row "Symbol").getD "undefined")

/-- One joined output row, fields as on source lines 149-162. -/
structure Constituent where
  symbol : String
  name : String
  sector : String
  price : Option ℚ
  dividendYield : Option ℚ
deriving DecidableEq, Repr

/-- Source lines 149-162: join one scraped row with the quote mapping
(`??`-chains for name and sector, null pricing when the symbol is absent
from the mapping). -/
def toConstituent (quoteData : QuoteMap) (row : RawRow) : Constituent :=
  let symbol := rowSymbol row
  let pricing := (objGet quoteData symbol).getD nullPricing
  { symbol := symbol
    name := (objGet row "Security").getD
      ((objGet row "Company").getD ((objGet row "Name").getD ""))
    sector := (objGet row "GICS Sector").getD ((objGet row "Sector").getD "")
    price := pricing.price
    dividendYield := pricing.dividendYield }

/-- Source lines 139-163, `buildConstituents`, with the two fetched pages
and the quote endpoint as parameters: parse both pages (a parse failure on
either aborts the run), concatenate the row lists with the S&P 500 rows
first, enrich the symbol list, and join. -/
def buildConstituents (provider : Provider) (sp500Html midcapHtml : HtmlDoc) :
    Except String (List Constituent) :=
  match parseConstituentTable sp500Html, parseConstituentTable midcapHtml with
  | Except.ok sp500Rows, Except.ok midcapRows =>
      let combinedRows := sp500Rows ++ midcapRows
      let symbols := combinedRows.map rowSymbol
      let quoteData := fetchQuoteData provider symbols
      Except.ok (combinedRows.map (toConstituent quoteData))
  | Except.error e, _ => Except.error e
  | _, Except.error e => Except.error e

/-- Claim-level predicate: the table's header row has a cell whose trimmed
text equals "Symbol" case-insensitively. -/
def hasSymbolHeader (t : HtmlTable) : Bool :=
  (tableHeaders t).any (fun h => jsToLower h == "symbol")

/-- Claim-level predicate: scanning `cells` with running cell index starting
at `i`, some cell lies under a header name that reads "Symbol"
(case-insensitively) and has non-empty trimmed text — "a data row with a
non-empty Symbol cell". -/
def hasNonemptySymbolCellFrom (headers : List String) : Nat → List String → Bool
  | _, [] => false
  | i, c :: rest =>
      ((jsToLower (headerAt headers i) == "symbol") && (jsTrim c != "")) ||
        hasNonemptySymbolCellFrom headers (i + 1) rest

/-- The Symbol header text of a table: the header at the index found by
`findSymbolIndex` (empty when there is none). -/
def symbolHeaderOf (t : HtmlTable) : String :=
  match findSymbolIndex (tableHeaders t) with
  | some i => ((tableHeaders t).get? i).getD ""
  | none => ""

/-- The data rows the table loop keeps for a table (empty when the table
has no Symbol header). -/
def keptRows (t : HtmlTable) : List RawRow :=
  match findSymbolIndex (tableHeaders t) with
  | none => []
  | some i =>
      (t.rows.drop 1).filterMap
        (rowEntry? (tableHeaders t) (((tableHeaders t).get? i).getD ""))

/-- A table the loop of `parseConstituentTable` accepts: it has a Symbol
header and at least one kept data row. -/
def tableQualifies (t : HtmlTable) : Bool :=
  hasSymbolHeader t && !(keptRows t).isEmpty

/-- A quote endpoint that only answers for symbols it was asked about:
every quote of a successful batch response carries one of the batch's
transformed symbols. -/
def WellBehaved (provider : Provider) : Prop :=
  ∀ i ys qs, provider i ys = Except.ok qs → ∀ q : Quote, some q ∈ qs → q.symbol ∈ ys

/-! ### Concrete fixtures used by the claim instances below -/

/-- A 51-symbol input whose duplicated symbol "A" lands both in batch 0
(the first 50 entries) and in batch 1 (the remainder). -/
def dupSymbols : List String := "A" :: (List.replicate 49 "F" ++ ["A"])

/-- A provider that resolves "A" in batch 0 and throws on every later
batch. -/
def failSecondProvider : Provider := fun i _ =>
  if i = 0 then Except.ok [some ⟨"A", some 5, none, none⟩] else Except.error "batch failed"

/-- A provider that answers every batch with a quote for "A" whose price
identifies the batch (1 for batch 0, 2 afterwards). -/
def overwriteProvider : Provider := fun i _ =>
  Except.ok [some ⟨"A", some (if i = 0 then (1 : ℚ) else 2), none, none⟩]

/-- A provider returning a quote for a symbol that was never requested. -/
def rogueProvider : Provider := fun _ _ =>
  Except.ok [some ⟨"ZZZ", some 7, none, none⟩]

/-- A provider that answers with a quote for the transformed symbol
"BRK-B". -/
def brkProvider : Provider := fun _ _ =>
  Except.ok [some ⟨"BRK-B", some 10, none, none⟩]

/-- A provider whose every answer is an empty quote array. -/
def emptyProvider : Provider := fun _ _ => Except.ok []

/-- A table with a Name and a Symbol column and one data row. -/
def sampleTable : HtmlTable := ⟨[["Name", "Symbol"], ["Apple", "AAPL"]]⟩

/-- A table with no Symbol header. -/
def noSymbolTable : HtmlTable := ⟨[["Name", "Price"], ["X", "1"]]⟩

/-- A table whose header row repeats "Symbol" twice: in the data row the
second (empty) cell overwrites the first under the shared header name. -/
def dupHeaderTable : HtmlTable := ⟨[["Symbol", "Symbol"], ["AAPL", ""]]⟩

/-- First fixture page: one qualifying table whose only data row has
symbol "AAA". -/
def pageOne : HtmlDoc := [⟨[["Name", "Symbol"], ["Apple", "AAA"]]⟩]

/-- Second fixture page: one qualifying table whose only data row also has
symbol "AAA". -/
def pageTwo : HtmlDoc := [⟨[["Security", "Symbol"], ["Also", "AAA"]]⟩]

/-! ## Lemmas about the JS-object model -/

@[simp]
theorem objGet_nil {β : Type} (k : String) : objGet ([] : Obj β) k = none := rfl

@[simp]
theorem objGet_cons {β : Type} (a : String) (b : β) (rest : Obj β) (k : String) :
    objGet ((a, b) :: rest) k = if a = k then some b else objGet rest k := rfl

@[simp]
theorem objSet_nil {β : Type} (k : String) (v : β) : objSet ([] : Obj β) k v = [(k, v)] := rfl

@[simp]
theorem objSet_cons {β : Type} (a : String) (b : β) (rest : Obj β) (k : String) (v : β) :
    objSet ((a, b) :: rest) k v =
      if a = k then (a, v) :: rest else (a, b) :: objSet rest k v := rfl

@[simp]
theorem objKeys_nil {β : Type} : objKeys ([] : Obj β) = [] := rfl

@[simp]
theorem objKeys_cons {β : Type} (p : String × β) (rest : Obj β) :
    objKeys (p :: rest) = p.1 :: objKeys rest := rfl

theorem objGet_objSet_self {β : Type} (m : Obj β) (k : String) (v : β) :
    objGet (objSet m k v) k = some v := by
  induction m with
  | nil => simp
  | cons p rest ih =>
      obtain ⟨a, b⟩ := p
      by_cases h : a = k
      · simp [h]
      · simp [h, ih]

theorem objGet_objSet_ne {β : Type} (m : Obj β) (k k' : String) (v : β) (h : k' ≠ k) :
    objGet (objSet m k v) k' = objGet m k' := by
  induction m with
  | nil => simp [Ne.symm h]
  | cons p rest ih =>
      obtain ⟨a, b⟩ := p
      by_cases hp : a = k
      · subst hp
        simp [Ne.symm h]
      · by_cases hp' : a = k'
        · simp [hp, hp', h]
        · simp [hp, hp', ih]

theorem isSome_objGet_objSet {β : Type} (m : Obj β) (k k' : String) (v : β)
    (h : (objGet m k').isSome) : (objGet (objSet m k v) k').isSome := by
  by_cases hk : k' = k
  · subst hk; simp [objGet_objSet_self]
  · rwa [objGet_objSet_ne _ _ _ _ hk]

theorem mem_objKeys_iff {β : Type} (m : Obj β) (k : String) :
    k ∈ objKeys m ↔ (objGet m k).isSome := by
  induction m with
  | nil => simp
  | cons p rest ih =>
      obtain ⟨a, b⟩ := p
      by_cases h : a = k
      · simp [h]
      · simp only [objKeys_cons, objGet_cons, List.mem_cons, if_neg h]
        constructor
        · intro hmem
          rcases hmem with hmem | hmem
          · exact absurd hmem.symm h
          · exact ih.mp hmem
        · intro hs
          exact Or.inr (ih.mpr hs)

theorem objKeys_objSet_mem {β : Type} (m : Obj β) (k : String) (v : β)
    (h : k ∈ objKeys m) : objKeys (objSet m k v) = objKeys m := by
  induction m with
  | nil => simp at h
  | cons p rest ih =>
      obtain ⟨a, b⟩ := p
      by_cases hp : a = k
      · simp [hp]
      · simp only [objKeys_cons, List.mem_cons] at h
        rcases h with h | h
        · exact absurd h.symm hp
        · simp [hp, ih h]

theorem objKeys_objSet_not_mem {β : Type} (m : Obj β) (k : String) (v : β)
    (h : k ∉ objKeys m) : objKeys (objSet m k v) = objKeys m ++ [k] := by
  induction m with
  | nil => simp
  | cons p rest ih =>
      obtain ⟨a, b⟩ := p
      simp only [objKeys_cons, List.mem_cons] at h
      push_neg at h
      simp [Ne.symm h.1, ih h.2]

theorem nodup_objKeys_objSet {β : Type} (m : Obj β) (k : String) (v : β)
    (h : (objKeys m).Nodup) : (objKeys (objSet m k v)).Nodup := by
  by_cases hk : k ∈ objKeys m
  · rwa [objKeys_objSet_mem _ _ _ hk]
  · rw [objKeys_objSet_not_mem _ _ _ hk]
    refine List.Nodup.append h (List.nodup_singleton k) ?_
    intro a ha hb
    simp only [List.mem_singleton] at hb
    subst hb
    exact hk ha

theorem mem_objKeys_objSet {β : Type} (m : Obj β) (k a : String) (v : β)
    (h : a ∈ objKeys (objSet m k v)) : a ∈ objKeys m ∨ a = k := by
  by_cases hk : k ∈ objKeys m
  · rw [objKeys_objSet_mem _ _ _ hk] at h; exact Or.inl h
  · rw [objKeys_objSet_not_mem _ _ _ hk] at h
    simpa using h

/-! ## Lemmas about the backfill loop -/

@[simp]
theorem backfillChunk_nil (m : QuoteMap) : backfillChunk m [] = m := rfl

@[simp]
theorem backfillChunk_cons (m : QuoteMap) (s : String) (rest : List String) :
    backfillChunk m (s :: rest) =
      backfillChunk (if (objGet m s).isSome then m else objSet m s nullPricing) rest := rfl

theorem backfillChunk_preserves (c : List String) :
    ∀ (m : QuoteMap) (s : String) (v : Pricing),
      objGet m s = some v → objGet (backfillChunk m c) s = some v := by
  induction c with
  | nil => intro m s v h; simpa using h
  | cons a rest ih =>
      intro m s v h
      rw [backfillChunk_cons]
      by_cases ha : (objGet m a).isSome
      · rw [if_pos ha]; exact ih m s v h
      · rw [if_neg ha]
        by_cases hsa : s = a
        · subst hsa
          rw [h] at ha; simp at ha
        · refine ih _ s v ?_
          rw [objGet_objSet_ne _ _ _ _ hsa]
          exact h

theorem backfillChunk_preserves_isSome (c : List String) (m : QuoteMap) (s : String)
    (h : (objGet m s).isSome) : (objGet (backfillChunk m c) s).isSome := by
  obtain ⟨v, hv⟩ := Option.isSome_iff_exists.mp h
  rw [backfillChunk_preserves c m s v hv]
  rfl

theorem backfillChunk_isSome_of_mem (c : List String) :
    ∀ (m : QuoteMap) (s : String), s ∈ c → (objGet (backfillChunk m c) s).isSome := by
  induction c with
  | nil => intro m s h; simp at h
  | cons a rest ih =>
      intro m s h
      rw [backfillChunk_cons]
      rcases List.mem_cons.mp h with h | h
      · subst h
        by_cases ha : (objGet m s).isSome
        · rw [if_pos ha]; exact backfillChunk_preserves_isSome rest m s ha
        · rw [if_neg ha]
          refine backfillChunk_preserves_isSome rest _ s ?_
          rw [objGet_objSet_self]; rfl
      · exact ih _ s h

theorem backfillChunk_none_of_mem (c : List String) :
    ∀ (m : QuoteMap) (s : String), objGet m s = none → s ∈ c →
      objGet (backfillChunk m c) s = some nullPricing := by
  induction c with
  | nil => intro m s _ h; simp at h
  | cons a rest ih =>
      intro m s hnone h
      rw [backfillChunk_cons]
      by_cases hsa : s = a
      · subst hsa
        rw [hnone]
        simp only [Option.isSome_none, Bool.false_eq_true, if_false]
        exact backfillChunk_preserves rest _ s nullPricing (objGet_objSet_self m s nullPricing)
      · have h' : s ∈ rest := by
          rcases List.mem_cons.mp h with h | h
          · exact absurd h hsa
          · exact h
        by_cases ha : (objGet m a).isSome
        · rw [if_pos ha]; exact ih m s hnone h'
        · rw [if_neg ha]
          refine ih _ s ?_ h'
          rw [objGet_objSet_ne _ _ _ _ hsa]
          exact hnone

theorem backfillChunk_not_mem (c : List String) :
    ∀ (m : QuoteMap) (s : String), s ∉ c →
      objGet (backfillChunk m c) s = objGet m s := by
  induction c with
  | nil => intro m s _; rfl
  | cons a rest ih =>
      intro m s h
      have hsa : s ≠ a := fun hh => h (hh ▸ List.mem_cons_self a rest)
      have h' : s ∉ rest := fun hh => h (List.mem_cons_of_mem a hh)
      rw [backfillChunk_cons]
      by_cases ha : (objGet m a).isSome
      · rw [if_pos ha]; exact ih m s h'
      · rw [if_neg ha]
        rw [ih _ s h']
        exact objGet_objSet_ne _ _ _ _ hsa

theorem mem_objKeys_backfillChunk (c : List String) :
    ∀ (m : QuoteMap) (a : String), a ∈ objKeys (backfillChunk m c) →
      a ∈ objKeys m ∨ a ∈ c := by
  induction c with
  | nil => intro m a h; exact Or.inl h
  | cons s rest ih =>
      intro m a h
      rw [backfillChunk_cons] at h
      rcases ih _ a h with h' | h'
      · by_cases hs : (objGet m s).isSome
        · rw [if_pos hs] at h'; exact Or.inl h'
        · rw [if_neg hs] at h'
          rcases mem_objKeys_objSet _ _ _ _ h' with h'' | h''
          · exact Or.inl h''
          · exact Or.inr (h'' ▸ List.mem_cons_self s rest)
      · exact Or.inr (List.mem_cons_of_mem s h')

theorem nodup_objKeys_backfillChunk (c : List String) :
    ∀ (m : QuoteMap), (objKeys m).Nodup → (objKeys (backfillChunk m c)).Nodup := by
  induction c with
  | nil => intro m h; exact h
  | cons s rest ih =>
      intro m h
      rw [backfillChunk_cons]
      by_cases hs : (objGet m s).isSome
      · rw [if_pos hs]; exact ih m h
      · rw [if_neg hs]; exact ih _ (nodup_objKeys_objSet m s nullPricing h)

/-! ## Lemmas about the position-based symbol lookup -/

theorem mapGetLast_some_mem (pairs : List (String × String)) (k v : String)
    (h : mapGetLast pairs k = some v) : (k, v) ∈ pairs := by
  induction pairs with
  | nil => simp [mapGetLast] at h
  | cons p rest ih =>
      obtain ⟨a, b⟩ := p
      rw [mapGetLast] at h
      cases hrest : mapGetLast rest k with
      | some w =>
          rw [hrest] at h
          simp only [Option.some.injEq] at h
          subst h
          exact List.mem_cons_of_mem _ (ih hrest)
      | none =>
          rw [hrest] at h
          by_cases ha : a = k
          · rw [if_pos ha] at h
            simp only [Option.some.injEq] at h
            subst ha; subst h
            exact List.mem_cons_self _ _
          · rw [if_neg ha] at h
            simp at h

theorem mapGetLast_isSome_of_mem (pairs : List (String × String)) (k : String)
    (h : k ∈ pairs.map Prod.fst) : (mapGetLast pairs k).isSome := by
  induction pairs with
  | nil => simp at h
  | cons p rest ih =>
      obtain ⟨a, b⟩ := p
      rw [mapGetLast]
      cases hrest : mapGetLast rest k with
      | some w => rfl
      | none =>
          simp only [List.map_cons, List.mem_cons] at h
          rcases h with h | h
          · rw [if_pos h.symm]; rfl
          · have := ih h
            rw [hrest] at this
            simp at this

theorem mapGetLast_none_of_not_mem (pairs : List (String × String)) (k : String)
    (h : k ∉ pairs.map Prod.fst) : mapGetLast pairs k = none := by
  induction pairs with
  | nil => rfl
  | cons p rest ih =>
      obtain ⟨a, b⟩ := p
      simp only [List.map_cons, List.mem_cons] at h
      push_neg at h
      rw [mapGetLast, ih h.2, if_neg (fun hh => h.1 hh.symm)]

theorem origSymbol_mem_of_mem (chunk : List String) (q : Quote)
    (h : q.symbol ∈ chunk.map toYahooSymbol) :
    origSymbol (List.zip (chunk.map toYahooSymbol) chunk) q ∈ chunk := by
  have hfst : (List.zip (chunk.map toYahooSymbol) chunk).map Prod.fst
      = chunk.map toYahooSymbol := by
    apply List.map_fst_zip
    simp
  have hs : (mapGetLast (List.zip (chunk.map toYahooSymbol) chunk) q.symbol).isSome := by
    apply mapGetLast_isSome_of_mem
    rw [hfst]
    exact h
  obtain ⟨v, hv⟩ := Option.isSome_iff_exists.mp hs
  have hmem := mapGetLast_some_mem _ _ _ hv
  rw [origSymbol, hv, Option.getD_some]
  exact (List.of_mem_zip hmem).2

theorem origSymbol_eq_of_not_mem (chunk : List String) (q : Quote)
    (h : q.symbol ∉ chunk.map toYahooSymbol) :
    origSymbol (List.zip (chunk.map toYahooSymbol) chunk) q = q.symbol := by
  have hfst : (List.zip (chunk.map toYahooSymbol) chunk).map Prod.fst
      = chunk.map toYahooSymbol := by
    apply List.map_fst_zip
    simp
  rw [origSymbol, mapGetLast_none_of_not_mem, Option.getD_none]
  rw [hfst]
  exact h

/-! ## Lemmas about the quote-application loop -/

@[simp]
theorem applyQuotes_nil (sm : List (String × String)) (m : QuoteMap) :
    applyQuotes sm m [] = m := rfl

@[simp]
theorem applyQuotes_cons_none (sm : List (String × String)) (m : QuoteMap)
    (rest : List (Option Quote)) :
    applyQuotes sm m (none :: rest) = applyQuotes sm m rest := rfl

@[simp]
theorem applyQuotes_cons_some (sm : List (String × String)) (m : QuoteMap)
    (q : Quote) (rest : List (Option Quote)) :
    applyQuotes sm m (some q :: rest) =
      applyQuotes sm (objSet m (origSymbol sm q) (resolveQuote q)) rest := rfl

theorem applyQuotes_preserves_isSome (sm : List (String × String))
    (qs : List (Option Quote)) :
    ∀ (m : QuoteMap) (s : String), (objGet m s).isSome →
      (objGet (applyQuotes sm m qs) s).isSome := by
  induction qs with
  | nil => intro m s h; exact h
  | cons oq rest ih =>
      intro m s h
      cases oq with
      | none => exact ih m s h
      | some q => exact ih _ s (isSome_objGet_objSet _ _ _ _ h)

theorem applyQuotes_untouched (sm : List (String × String)) (qs : List (Option Quote)) :
    ∀ (m : QuoteMap) (s : String), (∀ q : Quote, some q ∈ qs → origSymbol sm q ≠ s) →
      objGet (applyQuotes sm m qs) s = objGet m s := by
  induction qs with
  | nil => intro m s _; rfl
  | cons oq rest ih =>
      intro m s h
      cases oq with
      | none =>
          exact ih m s (fun q hq => h q (List.mem_cons_of_mem _ hq))
      | some q =>
          rw [applyQuotes_cons_some,
            ih _ s (fun q' hq' => h q' (List.mem_cons_of_mem _ hq'))]
          exact objGet_objSet_ne _ _ _ _ (Ne.symm (h q (List.mem_cons_self _ _)))

theorem mem_objKeys_applyQuotes (sm : List (String × String)) (qs : List (Option Quote)) :
    ∀ (m : QuoteMap) (a : String), a ∈ objKeys (applyQuotes sm m qs) →
      a ∈ objKeys m ∨ ∃ q : Quote, some q ∈ qs ∧ origSymbol sm q = a := by
  induction qs with
  | nil => intro m a h; exact Or.inl h
  | cons oq rest ih =>
      intro m a h
      cases oq with
      | none =>
          rcases ih m a h with h' | ⟨q, hq, hq'⟩
          · exact Or.inl h'
          · exact Or.inr ⟨q, List.mem_cons_of_mem _ hq, hq'⟩
      | some q =>
          rw [applyQuotes_cons_some] at h
          rcases ih _ a h with h' | ⟨q', hq', hq''⟩
          · rcases mem_objKeys_objSet _ _ _ _ h' with h'' | h''
            · exact Or.inl h''
            · exact Or.inr ⟨q, List.mem_cons_self _ _, h''.symm⟩
          · exact Or.inr ⟨q', List.mem_cons_of_mem _ hq', hq''⟩

theorem nodup_objKeys_applyQuotes (sm : List (String × String)) (qs : List (Option Quote)) :
    ∀ (m : QuoteMap), (objKeys m).Nodup → (objKeys (applyQuotes sm m qs)).Nodup := by
  induction qs with
  | nil => intro m h; exact h
  | cons oq rest ih =>
      intro m h
      cases oq with
      | none => exact ih m h
      | some q => exact ih _ (nodup_objKeys_objSet _ _ _ h)

/-! ## Lemmas about one chunk iteration -/

theorem processChunk_error (call : List String → Except String (List (Option Quote)))
    (m : QuoteMap) (chunk : List String) (e : String)
    (h : call (chunk.map toYahooSymbol) = Except.error e) :
    processChunk call m chunk = backfillChunk m chunk := by
  simp [processChunk, h]

theorem processChunk_ok (call : List String → Except String (List (Option Quote)))
    (m : QuoteMap) (chunk : List String) (qs : List (Option Quote))
    (h : call (chunk.map toYahooSymbol) = Except.ok qs) :
    processChunk call m chunk =
      backfillChunk (applyQuotes (List.zip (chunk.map toYahooSymbol) chunk) m qs) chunk := by
  simp [processChunk, h]

theorem processChunk_isSome_of_mem (call : List String → Except String (List (Option Quote)))
    (m : QuoteMap) (chunk : List String) (s : String) (h : s ∈ chunk) :
    (objGet (processChunk call m chunk) s).isSome := by
  cases hc : call (chunk.map toYahooSymbol) with
  | error e =>
      rw [processChunk_error _ _ _ _ hc]
      exact backfillChunk_isSome_of_mem _ _ _ h
  | ok qs =>
      rw [processChunk_ok _ _ _ _ hc]
      exact backfillChunk_isSome_of_mem _ _ _ h

theorem processChunk_preserves_isSome
    (call : List String → Except String (List (Option Quote)))
    (m : QuoteMap) (chunk : List String) (s : String)
    (h : (objGet m s).isSome) : (objGet (processChunk call m chunk) s).isSome := by
  cases hc : call (chunk.map toYahooSymbol) with
  | error e =>
      rw [processChunk_error _ _ _ _ hc]
      exact backfillChunk_preserves_isSome _ _ _ h
  | ok qs =>
      rw [processChunk_ok _ _ _ _ hc]
      exact backfillChunk_preserves_isSome _ _ _
        (applyQuotes_preserves_isSome _ _ _ _ h)

theorem processChunk_untouched (call : List String → Except String (List (Option Quote)))
    (m : QuoteMap) (chunk : List String) (s : String)
    (hwb : ∀ qs, call (chunk.map toYahooSymbol) = Except.ok qs →
      ∀ q : Quote, some q ∈ qs → q.symbol ∈ chunk.map toYahooSymbol)
    (h : s ∉ chunk) :
    objGet (processChunk call m chunk) s = objGet m s := by
  cases hc : call (chunk.map toYahooSymbol) with
  | error e =>
      rw [processChunk_error _ _ _ _ hc]
      exact backfillChunk_not_mem _ _ _ h
  | ok qs =>
      rw [processChunk_ok _ _ _ _ hc]
      rw [backfillChunk_not_mem _ _ _ h]
      apply applyQuotes_untouched
      intro q hq hq'
      have hmem := origSymbol_mem_of_mem chunk q (hwb qs hc q hq)
      rw [hq'] at hmem
      exact h hmem

theorem mem_objKeys_processChunk (call : List String → Except String (List (Option Quote)))
    (m : QuoteMap) (chunk : List String) (a : String)
    (hwb : ∀ qs, call (chunk.map toYahooSymbol) = Except.ok qs →
      ∀ q : Quote, some q ∈ qs → q.symbol ∈ chunk.map toYahooSymbol)
    (h : a ∈ objKeys (processChunk call m chunk)) :
    a ∈ objKeys m ∨ a ∈ chunk := by
  cases hc : call (chunk.map toYahooSymbol) with
  | error e =>
      rw [processChunk_error _ _ _ _ hc] at h
      exact mem_objKeys_backfillChunk _ _ _ h
  | ok qs =>
      rw [processChunk_ok _ _ _ _ hc] at h
      rcases mem_objKeys_backfillChunk _ _ _ h with h' | h'
      · rcases mem_objKeys_applyQuotes _ _ _ _ h' with h'' | ⟨q, hq, hq'⟩
        · exact Or.inl h''
        · refine Or.inr ?_
          rw [← hq']
          exact origSymbol_mem_of_mem chunk q (hwb qs hc q hq)
      · exact Or.inr h'

theorem nodup_objKeys_processChunk (call : List String → Except String (List (Option Quote)))
    (m : QuoteMap) (chunk : List String)
    (h : (objKeys m).Nodup) : (objKeys (processChunk call m chunk)).Nodup := by
  cases hc : call (chunk.map toYahooSymbol) with
  | error e =>
      rw [processChunk_error _ _ _ _ hc]
      exact nodup_objKeys_backfillChunk _ _ h
  | ok qs =>
      rw [processChunk_ok _ _ _ _ hc]
      exact nodup_objKeys_backfillChunk _ _ (nodup_objKeys_applyQuotes _ _ _ h)

/-! ## Lemmas about the chunk loop -/

@[simp]
theorem runChunks_nil (p : Provider) (i : Nat) (m : QuoteMap) :
    runChunks p i m [] = m := rfl

@[simp]
theorem runChunks_cons (p : Provider) (i : Nat) (m : QuoteMap)
    (c : List String) (cs : List (List String)) :
    runChunks p i m (c :: cs) = runChunks p (i + 1) (processChunk (p i) m c) cs := rfl

theorem runChunks_preserves_isSome (p : Provider) (cs : List (List String)) :
    ∀ (i : Nat) (m : QuoteMap) (s : String), (objGet m s).isSome →
      (objGet (runChunks p i m cs) s).isSome := by
  induction cs with
  | nil => intro i m s h; exact h
  | cons c rest ih =>
      intro i m s h
      exact ih _ _ s (processChunk_preserves_isSome _ _ _ _ h)

theorem runChunks_isSome_of_mem (p : Provider) (cs : List (List String)) :
    ∀ (i : Nat) (m : QuoteMap) (c : List String) (s : String),
      c ∈ cs → s ∈ c → (objGet (runChunks p i m cs) s).isSome := by
  induction cs with
  | nil => intro i m c s h _; simp at h
  | cons c0 rest ih =>
      intro i m c s hc hs
      rcases List.mem_cons.mp hc with hc | hc
      · subst hc
        rw [runChunks_cons]
        exact runChunks_preserves_isSome p rest _ _ s
          (processChunk_isSome_of_mem _ _ _ s hs)
      · rw [runChunks_cons]
        exact ih _ _ c s hc hs

theorem runChunks_untouched (p : Provider) (hwb : WellBehaved p)
    (cs : List (List String)) :
    ∀ (i : Nat) (m : QuoteMap) (s : String), (∀ c ∈ cs, s ∉ c) →
      objGet (runChunks p i m cs) s = objGet m s := by
  induction cs with
  | nil => intro i m s _; rfl
  | cons c rest ih =>
      intro i m s h
      rw [runChunks_cons, ih _ _ s (fun c' hc' => h c' (List.mem_cons_of_mem _ hc'))]
      exact processChunk_untouched _ _ _ s
        (fun qs hqs q hq => hwb i _ qs hqs q hq)
        (h c (List.mem_cons_self _ _))

theorem mem_objKeys_runChunks (p : Provider) (hwb : WellBehaved p)
    (cs : List (List String)) :
    ∀ (i : Nat) (m : QuoteMap) (a : String), a ∈ objKeys (runChunks p i m cs) →
      a ∈ objKeys m ∨ ∃ c ∈ cs, a ∈ c := by
  induction cs with
  | nil => intro i m a h; exact Or.inl h
  | cons c rest ih =>
      intro i m a h
      rw [runChunks_cons] at h
      rcases ih _ _ a h with h' | ⟨c', hc', ha⟩
      · rcases mem_objKeys_processChunk _ _ _ a
            (fun qs hqs q hq => hwb i _ qs hqs q hq) h' with h'' | h''
        · exact Or.inl h''
        · exact Or.inr ⟨c, List.mem_cons_self _ _, h''⟩
      · exact Or.inr ⟨c', List.mem_cons_of_mem _ hc', ha⟩

theorem nodup_objKeys_runChunks (p : Provider) (cs : List (List String)) :
    ∀ (i : Nat) (m : QuoteMap), (objKeys m).Nodup →
      (objKeys (runChunks p i m cs)).Nodup := by
  induction cs with
  | nil => intro i m h; exact h
  | cons c rest ih =>
      intro i m h
      exact ih _ _ (nodup_objKeys_processChunk _ _ _ h)

theorem runChunks_fail (p : Provider) (hwb : WellBehaved p) (cs : List (List String)) :
    ∀ (i : Nat) (m : QuoteMap) (k : Nat) (chunk : List String) (s : String) (e : String),
      cs.get? k = some chunk → s ∈ chunk →
      p (i + k) (chunk.map toYahooSymbol) = Except.error e →
      (∀ j c', cs.get? j = some c' → j ≠ k → s ∉ c') →
      objGet m s = none →
      objGet (runChunks p i m cs) s = some nullPricing := by
  induction cs with
  | nil => intro i m k chunk s e hk; simp at hk
  | cons c rest ih =>
      intro i m k chunk s e hk hs hp hothers hnone
      cases k with
      | zero =>
          simp only [List.get?_cons_zero, Option.some.injEq] at hk
          subst hk
          rw [runChunks_cons]
          have hcall : p i (c.map toYahooSymbol) = Except.error e := by
            simpa using hp
          rw [runChunks_untouched p hwb rest _ _ s ?_]
          · rw [processChunk_error _ _ _ _ hcall]
            exact backfillChunk_none_of_mem _ _ _ hnone hs
          · intro c' hc'
            obtain ⟨j, hj⟩ := List.get?_of_mem hc'
            exact hothers (j + 1) c' (by simpa using hj) (Nat.succ_ne_zero j)
      | succ k' =>
          rw [runChunks_cons]
          have hs0 : s ∉ c :=
            hothers 0 c (by simp) (Ne.symm (Nat.succ_ne_zero k'))
          refine ih (i + 1) _ k' chunk s e (by simpa using hk) hs ?_ ?_ ?_
          · have : i + 1 + k' = i + (k' + 1) := by omega
            rw [this]
            exact hp
          · intro j c' hj hjk
            exact hothers (j + 1) c' (by simpa using hj)
              (fun hh => hjk (Nat.succ_injective hh))
          · rw [processChunk_untouched _ _ _ s
              (fun qs hqs q hq => hwb i _ qs hqs q hq) hs0]
            exact hnone

/-! ## Lemmas about `chunkArray` -/

theorem chunkArrayGo_flatten {α : Type} (size : Nat) (hs : 0 < size) :
    ∀ (fuel : Nat) (items : List α), items.length ≤ fuel →
      (chunkArrayGo size fuel items).flatten = items := by
  intro fuel
  induction fuel with
  | zero =>
      intro items h
      cases items with
      | nil => rfl
      | cons x xs => simp at h
  | succ fuel ih =>
      intro items h
      cases items with
      | nil => rfl
      | cons x xs =>
          rw [chunkArrayGo, List.flatten_cons]
          rw [ih ((x :: xs).drop size) (by
            simp only [List.length_drop, List.length_cons]
            simp only [List.length_cons] at h
            omega)]
          exact List.take_append_drop size (x :: xs)

theorem chunkArray_join {α : Type} (size : Nat) (hs : 0 < size) (l : List α) :
    (chunkArray l size).flatten = l :=
  chunkArrayGo_flatten size hs l.length l le_rfl

theorem chunkArray_nil {α : Type} (size : Nat) : chunkArray ([] : List α) size = [] := rfl

theorem chunkArrayGo_length_le {α : Type} (size : Nat) :
    ∀ (fuel : Nat) (items : List α) (c : List α),
      c ∈ chunkArrayGo size fuel items → c.length ≤ size := by
  intro fuel
  induction fuel with
  | zero =>
      intro items c h
      cases items with
      | nil => simp [chunkArrayGo] at h
      | cons x xs => simp [chunkArrayGo] at h
  | succ fuel ih =>
      intro items c h
      cases items with
      | nil => simp [chunkArrayGo] at h
      | cons x xs =>
          rw [chunkArrayGo] at h
          rcases List.mem_cons.mp h with h | h
          · subst h
            rw [List.length_take]
            exact Nat.min_le_left _ _
          · exact ih _ c h

theorem chunkArray_length_le {α : Type} (size : Nat) (l : List α) (c : List α)
    (h : c ∈ chunkArray l size) : c.length ≤ size :=
  chunkArrayGo_length_le size l.length l c h

theorem chunkArrayGo_nil {α : Type} (size fuel : Nat) :
    chunkArrayGo size fuel ([] : List α) = [] := by
  cases fuel <;> rfl

theorem chunkArrayGo_full {α : Type} (size : Nat) (hs : 0 < size) :
    ∀ (fuel : Nat) (items : List α) (i : Nat) (c : List α), items.length ≤ fuel →
      i + 1 < (chunkArrayGo size fuel items).length →
      (chunkArrayGo size fuel items).get? i = some c → c.length = size := by
  intro fuel
  induction fuel with
  | zero =>
      intro items i c h hlt hc
      cases items with
      | nil => simp [chunkArrayGo] at hlt
      | cons x xs => simp at h
  | succ fuel ih =>
      intro items i c h hlt hc
      cases items with
      | nil => simp [chunkArrayGo] at hlt
      | cons x xs =>
          rw [chunkArrayGo] at hlt hc
          have hlen : ((x :: xs).drop size).length ≤ fuel := by
            simp only [List.length_drop, List.length_cons]
            simp only [List.length_cons] at h
            omega
          cases i with
          | zero =>
              simp only [List.get?_cons_zero, Option.some.injEq] at hc
              subst hc
              rw [List.length_take]
              simp only [List.length_cons]
              simp only [List.length_cons] at hlt
              have hrest : chunkArrayGo size fuel ((x :: xs).drop size) ≠ [] := by
                intro hh
                rw [hh] at hlt
                simp at hlt
              have hdrop : (x :: xs).drop size ≠ [] := by
                intro hh
                rw [hh] at hrest
                exact hrest (chunkArrayGo_nil size fuel)
              have hlen2 : 0 < ((x :: xs).drop size).length := List.length_pos.mpr hdrop
              rw [List.length_drop] at hlen2
              simp only [List.length_cons] at hlen2
              omega
          | succ i2 =>
              simp only [List.get?_cons_succ] at hc
              simp only [List.length_cons] at hlt
              exact ih _ i2 c hlen (by omega) hc

theorem chunkArray_full_of_not_last {α : Type} (size : Nat) (hs : 0 < size) (l : List α)
    (i : Nat) (c : List α) (hlt : i + 1 < (chunkArray l size).length)
    (hc : (chunkArray l size).get? i = some c) : c.length = size :=
  chunkArrayGo_full size hs l.length l i c le_rfl hlt hc

theorem mem_chunkArray_iff {α : Type} (size : Nat) (hs : 0 < size) (l : List α) (a : α) :
    (∃ c ∈ chunkArray l size, a ∈ c) ↔ a ∈ l := by
  rw [← chunkArray_join size hs l, List.mem_flatten]
  rw [chunkArray_join size hs l]

/-! ## Lemmas about the table extractor -/

theorem findSymbolIndex_isSome_iff (hs : List String) :
    (findSymbolIndex hs).isSome ↔ hs.any (fun h => jsToLower h == "symbol") := by
  induction hs with
  | nil => simp [findSymbolIndex]
  | cons h rest ih =>
      by_cases hh : jsToLower h == "symbol"
      · simp [findSymbolIndex, hh]
      · simp only [findSymbolIndex, hh, Bool.false_eq_true, if_false, List.any_cons,
          Bool.or_eq_true]
        rw [← ih]
        cases findSymbolIndex rest <;> simp [hh]

theorem findSymbolIndex_some_get (hs : List String) :
    ∀ i : Nat, findSymbolIndex hs = some i →
      ∃ h, hs.get? i = some h ∧ jsToLower h = "symbol" := by
  induction hs with
  | nil => intro i h; simp [findSymbolIndex] at h
  | cons h rest ih =>
      intro i hi
      by_cases hh : jsToLower h == "symbol"
      · rw [findSymbolIndex, if_pos hh] at hi
        simp only [Option.some.injEq] at hi
        subst hi
        exact ⟨h, rfl, by simpa using hh⟩
      · rw [findSymbolIndex, if_neg hh] at hi
        cases hrest : findSymbolIndex rest with
        | none => rw [hrest] at hi; simp at hi
        | some j =>
            rw [hrest] at hi
            simp only [Option.map_some', Option.some.injEq] at hi
            subst hi
            obtain ⟨h0, hget, hlow⟩ := ih j hrest
            exact ⟨h0, by simpa using hget, hlow⟩

theorem objGet_buildEntryAux (headers : List String) (h : String) (v : String) :
    ∀ (cells : List String) (i : Nat) (entry : RawRow),
      objGet (buildEntryAux headers i entry cells) h = some v →
      (∃ j c, cells.get? j = some c ∧ headerAt headers (i + j) = h ∧ v = jsTrim c) ∨
        objGet entry h = some v := by
  intro cells
  induction cells with
  | nil => intro i entry hg; exact Or.inr hg
  | cons c rest ih =>
      intro i entry hg
      rw [buildEntryAux] at hg
      rcases ih (i + 1) _ hg with ⟨j, c', hj, hh, hv⟩ | hg'
      · refine Or.inl ⟨j + 1, c', by simpa using hj, ?_, hv⟩
        have : i + (j + 1) = i + 1 + j := by omega
        rw [this]
        exact hh
      · by_cases hhead : headerAt headers i = h
        · rw [hhead, objGet_objSet_self] at hg'
          simp only [Option.some.injEq] at hg'
          exact Or.inl ⟨0, c, rfl, by simpa using hhead, hg'.symm⟩
        · rw [objGet_objSet_ne _ _ _ _ (fun hh => hhead hh.symm)] at hg'
          exact Or.inr hg'

theorem objGet_buildEntry (headers : List String) (cells : List String) (h v : String)
    (hg : objGet (buildEntry headers cells) h = some v) :
    ∃ j c, cells.get? j = some c ∧ headerAt headers j = h ∧ v = jsTrim c := by
  rcases objGet_buildEntryAux headers h v cells 0 [] hg with ⟨j, c, hj, hh, hv⟩ | hg'
  · exact ⟨j, c, hj, by simpa using hh, hv⟩
  · simp at hg'

theorem hasNonemptySymbolCellFrom_false (headers : List String) :
    ∀ (cells : List String) (i : Nat),
      hasNonemptySymbolCellFrom headers i cells = false →
      ∀ j c, cells.get? j = some c →
        ¬(jsToLower (headerAt headers (i + j)) = "symbol" ∧ jsTrim c ≠ "") := by
  intro cells
  induction cells with
  | nil => intro i _ j c hj; simp at hj
  | cons c0 rest ih =>
      intro i hfalse j c hj
      rw [hasNonemptySymbolCellFrom] at hfalse
      simp only [Bool.or_eq_false_iff, Bool.and_eq_false_iff] at hfalse
      cases j with
      | zero =>
          simp only [List.get?_cons_zero, Option.some.injEq] at hj
          subst hj
          rintro ⟨hsym, hne⟩
          rcases hfalse.1 with hbad | hbad
          · rw [Nat.add_zero] at hsym
            simp [hsym] at hbad
          · simp only [bne_eq_false_iff_eq] at hbad
            exact hne hbad
      | succ j' =>
          simp only [List.get?_cons_succ] at hj
          rintro ⟨hsym, hne⟩
          have : i + 1 + j' = i + (j' + 1) := by omega
          exact ih (i + 1) hfalse.2 j' c hj ⟨by rw [this]; exact hsym, hne⟩

theorem rowEntry?_eq_some (headers : List String) (sh : String) (cells : List String)
    (e : RawRow) (h : rowEntry? headers sh cells = some e) :
    e = buildEntry headers cells ∧
      ∃ v, objGet (buildEntry headers cells) sh = some v ∧ v ≠ "" := by
  rw [rowEntry?] at h
  cases hg : objGet (buildEntry headers cells) sh with
  | none => rw [hg] at h; simp at h
  | some v =>
      rw [hg] at h
      by_cases hv : v = ""
      · simp [hv] at h
      · simp only [hv, if_false, Option.some.injEq] at h
        exact ⟨h.symm, v, rfl, hv⟩

theorem rowEntry?_of_nonempty (headers : List String) (sh : String) (cells : List String)
    (v : String) (hg : objGet (buildEntry headers cells) sh = some v) (hv : v ≠ "") :
    rowEntry? headers sh cells = some (buildEntry headers cells) := by
  rw [rowEntry?, hg]
  simp [hv]

theorem processTable_eq_some_keptRows (t : HtmlTable) (hq : tableQualifies t = true) :
    processTable t = some (keptRows t) := by
  rw [tableQualifies, Bool.and_eq_true] at hq
  cases hfind : findSymbolIndex (tableHeaders t) with
  | none =>
      exfalso
      have := (findSymbolIndex_isSome_iff (tableHeaders t)).mpr (by
        rw [hasSymbolHeader] at hq
        exact hq.1)
      rw [hfind] at this
      simp at this
  | some i =>
      have hkept : keptRows t =
          (t.rows.drop 1).filterMap
            (rowEntry? (tableHeaders t) (((tableHeaders t).get? i).getD "")) := by
        simp only [keptRows, hfind]
      simp only [processTable, hfind, ← hkept]
      have hne : (keptRows t).isEmpty = false := by
        rcases hq with ⟨_, hq2⟩
        simp only [Bool.not_eq_true'] at hq2
        exact hq2
      rw [hne]
      simp

theorem processTable_none_of_not_qualifies (t : HtmlTable)
    (hq : tableQualifies t = false) : processTable t = none := by
  cases hfind : findSymbolIndex (tableHeaders t) with
  | none => simp only [processTable, hfind]
  | some i =>
      have hsym : hasSymbolHeader t = true := by
        rw [hasSymbolHeader, ← findSymbolIndex_isSome_iff, hfind]
        rfl
      rw [tableQualifies, hsym, Bool.true_and, Bool.not_eq_false'] at hq
      have hkept : keptRows t =
          (t.rows.drop 1).filterMap
            (rowEntry? (tableHeaders t) (((tableHeaders t).get? i).getD "")) := by
        simp only [keptRows, hfind]
      simp only [processTable, hfind, ← hkept, hq]
      simp

theorem parseConstituentTable_error_of_all_none (doc : HtmlDoc)
    (h : ∀ t ∈ doc, processTable t = none) :
    parseConstituentTable doc = Except.error NoTableFoundError := by
  induction doc with
  | nil => rfl
  | cons t rest ih =>
      rw [parseConstituentTable, h t (List.mem_cons_self _ _)]
      exact ih (fun t' ht' => h t' (List.mem_cons_of_mem _ ht'))

theorem parseConstituentTable_first (pre : HtmlDoc) (t : HtmlTable) (post : HtmlDoc)
    (r : List RawRow) (hpre : ∀ t' ∈ pre, processTable t' = none)
    (ht : processTable t = some r) :
    parseConstituentTable (pre ++ t :: post) = Except.ok r := by
  induction pre with
  | nil =>
      rw [List.nil_append, parseConstituentTable, ht]
  | cons t0 rest ih =>
      rw [List.cons_append, parseConstituentTable,
        hpre t0 (List.mem_cons_self _ _)]
      exact ih (fun t' ht' => hpre t' (List.mem_cons_of_mem _ ht'))

/-! ## Assembled facts about `fetchQuoteData` -/

theorem mem_objKeys_fetchQuoteData (provider : Provider) (hwb : WellBehaved provider)
    (symbols : List String) (k : String) :
    k ∈ objKeys (fetchQuoteData provider symbols) ↔ k ∈ symbols := by
  by_cases he : symbols.isEmpty
  · have hnil : symbols = [] := List.isEmpty_iff.mp he
    subst hnil
    rw [fetchQuoteData]
    simp
  · rw [fetchQuoteData, if_neg he]
    constructor
    · intro h
      rcases mem_objKeys_runChunks provider hwb _ 0 [] k h with h1 | ⟨c, hc, hk⟩
      · simp [objKeys] at h1
      · exact (mem_chunkArray_iff 50 (by norm_num) symbols k).mp ⟨c, hc, hk⟩
    · intro h
      obtain ⟨c, hc, hk⟩ := (mem_chunkArray_iff 50 (by norm_num) symbols k).mpr h
      rw [mem_objKeys_iff]
      exact runChunks_isSome_of_mem provider _ 0 [] c k hc hk

theorem nodup_objKeys_fetchQuoteData (provider : Provider) (symbols : List String) :
    (objKeys (fetchQuoteData provider symbols)).Nodup := by
  by_cases he : symbols.isEmpty
  · rw [fetchQuoteData, if_pos he]
    simp [objKeys]
  · rw [fetchQuoteData, if_neg he]
    exact nodup_objKeys_runChunks provider _ 0 [] (by simp [objKeys])

theorem fetchQuoteData_isSome_of_mem (provider : Provider) (symbols : List String)
    (s : String) (hs : s ∈ symbols) :
    (objGet (fetchQuoteData provider symbols) s).isSome := by
  have he : symbols.isEmpty = false := by
    cases symbols with
    | nil => simp at hs
    | cons x xs => rfl
  rw [fetchQuoteData, he]
  simp only [Bool.false_eq_true, if_false]
  obtain ⟨c, hc, hsc⟩ := (mem_chunkArray_iff 50 (by norm_num) symbols s).mpr hs
  exact runChunks_isSome_of_mem provider _ 0 [] c s hc hsc

theorem not_mem_other_chunk {cs : List (List String)} (hnd : cs.flatten.Nodup)
    {j k : Nat} {cj ck : List String} (hj : cs.get? j = some cj)
    (hk : cs.get? k = some ck) (hjk : j ≠ k) {s : String} (hs : s ∈ ck) : s ∉ cj := by
  have hpw : cs.Pairwise List.Disjoint := (List.nodup_flatten.mp hnd).2
  rw [List.pairwise_iff_getElem] at hpw
  obtain ⟨hjl, hje⟩ := List.get?_eq_some.mp hj
  obtain ⟨hkl, hke⟩ := List.get?_eq_some.mp hk
  rcases Nat.lt_or_ge j k with hlt | hge
  · have hdisj := hpw j k hjl hkl hlt
    intro hscj
    rw [List.get_eq_getElem] at hje hke
    rw [hje] at hdisj
    rw [hke] at hdisj
    exact hdisj hscj hs
  · have hlt : k < j := Nat.lt_of_le_of_ne hge (fun hh => hjk hh.symm)
    have hdisj := hpw k j hkl hjl hlt
    intro hscj
    rw [List.get_eq_getElem] at hje hke
    rw [hje] at hdisj
    rw [hke] at hdisj
    exact hdisj hs hscj

theorem fetchQuoteData_fail_chunk (provider : Provider) (hwb : WellBehaved provider)
    (symbols : List String) (hnd : symbols.Nodup) (k : Nat) (chunk : List String)
    (e : String) (hk : (chunkArray symbols 50).get? k = some chunk)
    (hfail : provider k (chunk.map toYahooSymbol) = Except.error e)
    (s : String) (hs : s ∈ chunk) :
    objGet (fetchQuoteData provider symbols) s = some nullPricing := by
  have he : symbols.isEmpty = false := by
    cases symbols with
    | nil => rw [chunkArray_nil] at hk; simp at hk
    | cons x xs => rfl
  rw [fetchQuoteData, he]
  simp only [Bool.false_eq_true, if_false]
  have hflat : (chunkArray symbols 50).flatten.Nodup := by
    rw [chunkArray_join 50 (by norm_num) symbols]
    exact hnd
  refine runChunks_fail provider hwb _ 0 [] k chunk s e hk hs ?_ ?_ rfl
  · simpa using hfail
  · intro j c2 hj hjk
    exact not_mem_other_chunk hflat hj hk hjk hs

/-! ## Claim theorems -/

/-- C6: `fetchQuoteData` splits its input symbol list into the consecutive
batches `chunkArray symbols 50` (source line 100): concatenating the
batches in order restores exactly the input list (order preserved, nothing
dropped or duplicated), every batch has at most 50 symbols, and every
batch other than possibly the last has exactly 50. -/
theorem claim_enrich_partitions_batches (symbols : List String) :
    (∀ provider : Provider, symbols.isEmpty = false →
      fetchQuoteData provider symbols = runChunks provider 0 [] (chunkArray symbols 50)) ∧
    (chunkArray symbols 50).flatten = symbols ∧
    (∀ c ∈ chunkArray symbols 50, c.length ≤ 50) ∧
    (∀ (i : Nat) (c : List String), i + 1 < (chunkArray symbols 50).length →
      (chunkArray symbols 50).get? i = some c → c.length = 50) := by
  refine ⟨?_, chunkArray_join 50 (by norm_num) symbols, ?_, ?_⟩
  · intro provider he
    simp [fetchQuoteData, he]
  · intro c hc
    exact chunkArray_length_le 50 symbols c hc
  · intro i c hlt hc
    exact chunkArray_full_of_not_last 50 (by norm_num) symbols i c hlt hc

/-- Witness for C6 at a concrete 51-symbol list: the two batches flatten
back to the input, the first (non-last) batch has exactly 50 entries, and
each batch has at most 50. -/
theorem claim_enrich_partitions_batches_witness :
    (chunkArray (List.replicate 51 "S") 50).flatten = List.replicate 51 "S" ∧
      (List.replicate 50 "S").length = 50 ∧ (List.replicate 50 "S").length ≤ 50 :=
  ⟨(claim_enrich_partitions_batches (List.replicate 51 "S")).2.1,
   (claim_enrich_partitions_batches (List.replicate 51 "S")).2.2.2 0 (List.replicate 50 "S")
     (by decide) (by decide),
   (claim_enrich_partitions_batches (List.replicate 51 "S")).2.2.1 (List.replicate 50 "S")
     (by decide)⟩

/-- C5: dividend-yield resolution (source lines 115-123): a numeric
`dividendYield` always wins over `trailingAnnualDividendYield`, otherwise
the trailing yield is used; the chosen fractional value is multiplied
by 100, and the price is the numeric `regularMarketPrice` (or null). In
particular a quote with dividendYield 0.015 and trailingAnnualDividendYield
0.02 resolves to 1.5 (not 2.0). -/
theorem claim_yield_precedence :
    (∀ (q : Quote) (y : ℚ), q.dividendYield = some y →
      (resolveQuote q).dividendYield = some (y * 100)) ∧
    (∀ q : Quote, q.dividendYield = none →
      (resolveQuote q).dividendYield = q.trailingAnnualDividendYield.map (fun y => y * 100)) ∧
    (∀ q : Quote, (resolveQuote q).price = q.regularMarketPrice) ∧
    (resolveQuote ⟨"X", some 10, some (15 / 1000 : ℚ), some (2 / 100 : ℚ)⟩).dividendYield
      = some (3 / 2 : ℚ) ∧
    (3 / 2 : ℚ) ≠ 2 := by
  refine ⟨?_, ?_, fun q => rfl, by norm_num [resolveQuote], by norm_num⟩
  · intro q y h
    simp [resolveQuote, h]
  · intro q h
    simp [resolveQuote, h]

/-- Witness for C5: the precedence branch applied to the concrete quote of
the claim, 0.015 × 100. -/
theorem claim_yield_precedence_witness :
    (resolveQuote ⟨"X", some 10, some (15 / 1000 : ℚ), some (2 / 100 : ℚ)⟩).dividendYield
      = some ((15 / 1000 : ℚ) * 100) :=
  claim_yield_precedence.1 ⟨"X", some 10, some (15 / 1000 : ℚ), some (2 / 100 : ℚ)⟩
    (15 / 1000 : ℚ) rfl

/-- C7: `toYahooSymbol` replaces every dot by a dash (so "BRK.B" becomes
"BRK-B"); the position-based lookup map built on source line 104 maps the
transformed symbol back to the original, and the full `fetchQuoteData`
pipeline keys a returned quote for "BRK-B" under "BRK.B". -/
theorem claim_symbol_roundtrip :
    (∀ s : String, (toYahooSymbol s).data
      = s.data.map (fun c => if c = '.' then '-' else c)) ∧
    toYahooSymbol "BRK.B" = "BRK-B" ∧
    mapGetLast (List.zip ((["BRK.B"] : List String).map toYahooSymbol) ["BRK.B"]) "BRK-B"
      = some "BRK.B" ∧
    fetchQuoteData brkProvider ["BRK.B"]
      = [("BRK.B", { price := some 10, dividendYield := none })] :=
  ⟨fun _ => rfl, rfl, rfl, by decide⟩

/-- C9 (implicit): when the provider's response holds a quote whose symbol
was not among the batch's transformed request symbols, source line 114
falls back to the provider's symbol verbatim, so the returned mapping can
contain keys that were never in the input symbol list. -/
theorem claim_rogue_symbol_key :
    (∀ (chunk : List String) (q : Quote), q.symbol ∉ chunk.map toYahooSymbol →
      origSymbol (List.zip (chunk.map toYahooSymbol) chunk) q = q.symbol) ∧
    fetchQuoteData rogueProvider ["AAA"]
      = [("ZZZ", { price := some 7, dividendYield := none }),
         ("AAA", { price := none, dividendYield := none })] ∧
    ("ZZZ" ∉ (["AAA"] : List String)) :=
  ⟨origSymbol_eq_of_not_mem, by decide, by decide⟩

/-- Witness for C9: the verbatim fallback applied to the concrete rogue
quote. -/
theorem claim_rogue_symbol_key_witness :
    origSymbol (List.zip ((["AAA"] : List String).map toYahooSymbol) ["AAA"])
      ⟨"ZZZ", some 7, none, none⟩ = "ZZZ" :=
  claim_rogue_symbol_key.1 ["AAA"] ⟨"ZZZ", some 7, none, none⟩ (by decide)

/-- C1 (amended): for a provider that only answers for requested symbols,
`fetchQuoteData` returns a mapping whose keys are exactly the distinct
input symbols (so exactly N unique keys for N distinct inputs), and every
value carries both a price and a dividendYield field, each a number or
null. -/
theorem claim_enrich_complete_mapping (provider : Provider) (symbols : List String)
    (hwb : WellBehaved provider) :
    (∀ k, k ∈ objKeys (fetchQuoteData provider symbols) ↔ k ∈ symbols) ∧
    (objKeys (fetchQuoteData provider symbols)).Nodup ∧
    (symbols.Nodup → (objKeys (fetchQuoteData provider symbols)).length = symbols.length) ∧
    (∀ pr ∈ fetchQuoteData provider symbols,
      (pr.2.price = none ∨ ∃ x : ℚ, pr.2.price = some x) ∧
      (pr.2.dividendYield = none ∨ ∃ x : ℚ, pr.2.dividendYield = some x)) := by
  refine ⟨mem_objKeys_fetchQuoteData provider hwb symbols,
    nodup_objKeys_fetchQuoteData provider symbols, ?_, ?_⟩
  · intro hnd
    have h1 : (objKeys (fetchQuoteData provider symbols)).toFinset = symbols.toFinset := by
      ext a
      simp only [List.mem_toFinset]
      exact mem_objKeys_fetchQuoteData provider hwb symbols a
    calc (objKeys (fetchQuoteData provider symbols)).length
        = (objKeys (fetchQuoteData provider symbols)).toFinset.card :=
          (List.toFinset_card_of_nodup (nodup_objKeys_fetchQuoteData provider symbols)).symm
      _ = symbols.toFinset.card := by rw [h1]
      _ = symbols.length := List.toFinset_card_of_nodup hnd
  · intro pr _
    constructor
    · cases hp : pr.2.price with
      | none => exact Or.inl rfl
      | some x => exact Or.inr ⟨x, rfl⟩
    · cases hp : pr.2.dividendYield with
      | none => exact Or.inl rfl
      | some x => exact Or.inr ⟨x, rfl⟩

/-- Counterexample to C1 as stated: a provider response containing an
unsolicited symbol makes the mapping for the 1-symbol request ["AAA"] hold
2 keys, so the key set is not exactly one per requested symbol. -/
theorem claim_enrich_complete_mapping_counterexample :
    objKeys (fetchQuoteData rogueProvider ["AAA"]) = ["ZZZ", "AAA"] ∧
    (objKeys (fetchQuoteData rogueProvider ["AAA"])).length
      ≠ (["AAA"] : List String).length :=
  ⟨by decide, by decide⟩

/-- Witness for C1 (amended): the vacuously well-behaved empty-answer
provider on a 2-symbol list gives exactly 2 keys. -/
theorem claim_enrich_complete_mapping_witness :
    (objKeys (fetchQuoteData emptyProvider ["AAA", "BBB"])).length
      = (["AAA", "BBB"] : List String).length := by
  have hwb : WellBehaved emptyProvider := by
    intro i ys qs hqs q hq
    simp only [emptyProvider, Except.ok.injEq] at hqs
    subst hqs
    simp at hq
  exact (claim_enrich_complete_mapping emptyProvider ["AAA", "BBB"] hwb).2.2.1 (by decide)

/-- C2 (amended): when the provider call for one batch throws and the
input list has no duplicate symbols (and the provider only answers for
requested symbols), every symbol of the failing batch is mapped to
`{price: null, dividendYield: null}`, and processing continues: every
input symbol — those of later batches included — still has an entry
(`fetchQuoteData` is total, no exception escapes). -/
theorem claim_batch_failure_degrades (provider : Provider) (symbols : List String)
    (k : Nat) (chunk : List String) (e : String)
    (hwb : WellBehaved provider) (hnd : symbols.Nodup)
    (hk : (chunkArray symbols 50).get? k = some chunk)
    (hfail : provider k (chunk.map toYahooSymbol) = Except.error e) :
    (∀ s ∈ chunk, objGet (fetchQuoteData provider symbols) s = some nullPricing) ∧
    (∀ s ∈ symbols, (objGet (fetchQuoteData provider symbols) s).isSome) := by
  constructor
  · intro s hs
    exact fetchQuoteData_fail_chunk provider hwb symbols hnd k chunk e hk hfail s hs
  · intro s hs
    exact fetchQuoteData_isSome_of_mem provider symbols s hs

/-- Counterexample to C2 as stated: the 51-symbol input `dupSymbols` puts
"A" into batch 0 and batch 1; batch 1's provider call throws, yet "A"
keeps the non-null resolution obtained in batch 0 instead of being
assigned null/null. -/
theorem claim_batch_failure_degrades_counterexample :
    (chunkArray dupSymbols 50).get? 1 = some ["A"] ∧
    failSecondProvider 1 ((["A"] : List String).map toYahooSymbol)
      = Except.error "batch failed" ∧
    "A" ∈ (["A"] : List String) ∧
    objGet (fetchQuoteData failSecondProvider dupSymbols) "A"
      = some { price := some 5, dividendYield := none } ∧
    some ({ price := some 5, dividendYield := none } : Pricing) ≠ some nullPricing :=
  ⟨by decide, rfl, by decide, by decide, by decide⟩

/-- Witness for C2 (amended): a provider that throws on its single batch
resolves the lone symbol to null/null. -/
theorem claim_batch_failure_degrades_witness :
    objGet (fetchQuoteData (fun _ _ => Except.error "boom") ["AAA"]) "AAA"
      = some nullPricing := by
  have h := claim_batch_failure_degrades (fun _ _ => Except.error "boom") ["AAA"]
    0 ["AAA"] "boom"
    (by intro i ys qs hqs q hq; simp at hqs)
    (by decide) (by decide) rfl
  exact h.1 "AAA" (by decide)

/-- C10 (implicit): the end-of-batch backfill only assigns symbols with no
entry yet, so an entry from an earlier batch survives a later batch whose
call throws, and survives a later batch whose quotes do not map to the
symbol, while a later successful quote for the symbol does overwrite the
entry; concretely on `dupSymbols` ("A" in batches 0 and 1), a batch-1
failure keeps batch 0's value and a batch-1 success overwrites it. -/
theorem claim_earlier_resolution_not_reset :
    (∀ (call : List String → Except String (List (Option Quote)))
        (m : QuoteMap) (chunk : List String) (s : String) (v : Pricing) (e : String),
      objGet m s = some v → call (chunk.map toYahooSymbol) = Except.error e →
      objGet (processChunk call m chunk) s = some v) ∧
    (∀ (call : List String → Except String (List (Option Quote)))
        (m : QuoteMap) (chunk : List String) (s : String) (v : Pricing)
        (qs : List (Option Quote)),
      objGet m s = some v → call (chunk.map toYahooSymbol) = Except.ok qs →
      (∀ q : Quote, some q ∈ qs →
        origSymbol (List.zip (chunk.map toYahooSymbol) chunk) q ≠ s) →
      objGet (processChunk call m chunk) s = some v) ∧
    (∀ (call : List String → Except String (List (Option Quote)))
        (m : QuoteMap) (chunk : List String) (s : String) (q : Quote),
      call (chunk.map toYahooSymbol) = Except.ok [some q] →
      origSymbol (List.zip (chunk.map toYahooSymbol) chunk) q = s →
      objGet (processChunk call m chunk) s = some (resolveQuote q)) ∧
    objGet (fetchQuoteData failSecondProvider dupSymbols) "A"
      = some { price := some 5, dividendYield := none } ∧
    objGet (fetchQuoteData overwriteProvider dupSymbols) "A"
      = some { price := some 2, dividendYield := none } := by
  refine ⟨?_, ?_, ?_, by decide, by decide⟩
  · intro call m chunk s v e hm hfail
    rw [processChunk_error _ _ _ _ hfail]
    exact backfillChunk_preserves _ _ _ _ hm
  · intro call m chunk s v qs hm hok huntouched
    rw [processChunk_ok _ _ _ _ hok]
    refine backfillChunk_preserves _ _ _ _ ?_
    rw [applyQuotes_untouched _ _ _ _ huntouched]
    exact hm
  · intro call m chunk s q hok horig
    rw [processChunk_ok _ _ _ _ hok]
    refine backfillChunk_preserves _ _ _ _ ?_
    rw [applyQuotes_cons_some, applyQuotes_nil, horig]
    exact objGet_objSet_self _ _ _

/-- Witness for C10: a failing call over chunk ["A"] leaves the existing
entry for "A" unchanged. -/
theorem claim_earlier_resolution_not_reset_witness :
    objGet (processChunk (fun _ => Except.error "x")
        [("A", { price := some 5, dividendYield := none })] ["A"]) "A"
      = some { price := some 5, dividendYield := none } :=
  claim_earlier_resolution_not_reset.1 (fun _ => Except.error "x")
    [("A", { price := some 5, dividendYield := none })] ["A"] "A"
    { price := some 5, dividendYield := none } "x" (by decide) rfl

/-- The symbol field of a joined row is the trimmed `row.Symbol`
stringification (source line 150). -/
theorem toConstituent_symbol (q : QuoteMap) (row : RawRow) :
    (toConstituent q row).symbol = rowSymbol row := rfl

/-- When both pages parse, `buildConstituents` joins the concatenation of
the two row lists (S&P 500 rows first). -/
theorem buildConstituents_ok (provider : Provider) (d1 d2 : HtmlDoc)
    (r1 r2 : List RawRow)
    (h1 : parseConstituentTable d1 = Except.ok r1)
    (h2 : parseConstituentTable d2 = Except.ok r2) :
    buildConstituents provider d1 d2 =
      Except.ok ((r1 ++ r2).map
        (toConstituent (fetchQuoteData provider ((r1 ++ r2).map rowSymbol)))) := by
  simp only [buildConstituents, h1, h2]

/-- C3 (amended): when some table has a Symbol header and a data row whose
entry value under the Symbol header name (cells zipped to headers, a later
duplicate header overwriting an earlier one) is non-empty, the extractor
returns the kept rows of the first such qualifying table: a non-empty list
whose every entry has a non-empty Symbol field. -/
theorem claim_extract_first_table (pre : HtmlDoc) (t : HtmlTable) (post : HtmlDoc)
    (hpre : ∀ t2 ∈ pre, tableQualifies t2 = false)
    (ht : tableQualifies t = true) :
    parseConstituentTable (pre ++ t :: post) = Except.ok (keptRows t) ∧
    keptRows t ≠ [] ∧
    (∀ e ∈ keptRows t, ∃ v, objGet e (symbolHeaderOf t) = some v ∧ v ≠ "") := by
  refine ⟨?_, ?_, ?_⟩
  · exact parseConstituentTable_first pre t post (keptRows t)
      (fun t2 ht2 => processTable_none_of_not_qualifies t2 (hpre t2 ht2))
      (processTable_eq_some_keptRows t ht)
  · rw [tableQualifies, Bool.and_eq_true] at ht
    intro hnil
    rcases ht with ⟨h1, h2⟩
    rw [hnil] at h2
    simp at h2
  · intro e he
    cases hfind : findSymbolIndex (tableHeaders t) with
    | none =>
        exfalso
        simp only [keptRows, hfind] at he
        simp at he
    | some i =>
        have hsh : symbolHeaderOf t = ((tableHeaders t).get? i).getD "" := by
          simp only [symbolHeaderOf, hfind]
        simp only [keptRows, hfind] at he
        rw [List.mem_filterMap] at he
        obtain ⟨cells, hc, hrow⟩ := he
        obtain ⟨hee, v, hv, hvne⟩ := rowEntry?_eq_some _ _ _ _ hrow
        subst hee
        rw [hsh]
        exact ⟨v, hv, hvne⟩

/-- Counterexample to C3 as stated: `dupHeaderTable` has a Symbol header
cell and a data row whose (first) Symbol-column cell "AAPL" is non-empty,
yet the extractor throws: the second cell, lying under the duplicated
header name "Symbol", overwrites the entry with the empty string, the row
is dropped, the table yields no rows, and no other table exists. -/
theorem claim_extract_first_table_counterexample :
    hasSymbolHeader dupHeaderTable = true ∧
    dupHeaderTable.rows.drop 1 = [["AAPL", ""]] ∧
    hasNonemptySymbolCellFrom (tableHeaders dupHeaderTable) 0 ["AAPL", ""] = true ∧
    parseConstituentTable [dupHeaderTable] = Except.error NoTableFoundError :=
  ⟨by decide, by decide, by decide, rfl⟩

/-- Witness for C3 (amended): a single qualifying table is extracted. -/
theorem claim_extract_first_table_witness :
    parseConstituentTable [sampleTable] = Except.ok (keptRows sampleTable) ∧
    keptRows sampleTable ≠ [] := by
  have h := claim_extract_first_table [] sampleTable []
    (by intro t2 ht2; simp at ht2) (by decide)
  exact ⟨h.1, h.2.1⟩

/-- C4: when no table has a header cell reading "Symbol" (trimmed,
case-insensitive) — including documents whose Symbol-headed tables have no
data row with a non-empty Symbol cell — the extractor fails with the
no-table error. -/
theorem claim_extract_error_no_symbol (doc : HtmlDoc)
    (h : ∀ t ∈ doc, hasSymbolHeader t = false ∨
      ∀ cells ∈ t.rows.drop 1,
        hasNonemptySymbolCellFrom (tableHeaders t) 0 cells = false) :
    parseConstituentTable doc = Except.error NoTableFoundError := by
  apply parseConstituentTable_error_of_all_none
  intro t ht
  cases hfind : findSymbolIndex (tableHeaders t) with
  | none => simp only [processTable, hfind]
  | some i =>
      rcases h t ht with hns | hcells
      · exfalso
        have hiss : (findSymbolIndex (tableHeaders t)).isSome = true := by
          rw [hfind]
          rfl
        rw [findSymbolIndex_isSome_iff] at hiss
        rw [hasSymbolHeader] at hns
        rw [hns] at hiss
        simp at hiss
      · simp only [processTable, hfind]
        have hrows : (t.rows.drop 1).filterMap
            (rowEntry? (tableHeaders t) (((tableHeaders t).get? i).getD "")) = [] := by
          rw [List.filterMap_eq_nil_iff]
          intro cells hc
          cases hre : rowEntry? (tableHeaders t) (((tableHeaders t).get? i).getD "") cells with
          | none => rfl
          | some e =>
              exfalso
              obtain ⟨hee, v, hv, hvne⟩ := rowEntry?_eq_some _ _ _ _ hre
              obtain ⟨j, c, hj, hh, hvtrim⟩ := objGet_buildEntry _ _ _ _ hv
              obtain ⟨h0, hget, hlow⟩ := findSymbolIndex_some_get _ i hfind
              have hshv : ((tableHeaders t).get? i).getD "" = h0 := by
                rw [hget]
                rfl
              rw [hshv] at hh
              refine hasNonemptySymbolCellFrom_false _ cells 0 (hcells cells hc) j c hj ?_
              constructor
              · rw [Nat.zero_add, hh]
                exact hlow
              · rw [← hvtrim]
                exact hvne
        rw [hrows]
        simp

/-- Witness for C4: a document whose only table has no Symbol header. -/
theorem claim_extract_error_no_symbol_witness :
    parseConstituentTable [noSymbolTable] = Except.error NoTableFoundError := by
  apply claim_extract_error_no_symbol
  intro t ht
  simp only [List.mem_singleton] at ht
  subst ht
  left
  decide

/-- C8: when both pages parse, the builder's output is the two extracted
row sequences joined in order (first index's rows first, internal order
preserved): the output symbols are exactly the concatenated row symbols,
the lengths add, and occurrence counts add — so a ticker present in both
source lists yields two output rows, never deduplicated. -/
theorem claim_builder_concatenates (provider : Provider) (d1 d2 : HtmlDoc)
    (r1 r2 : List RawRow)
    (h1 : parseConstituentTable d1 = Except.ok r1)
    (h2 : parseConstituentTable d2 = Except.ok r2) :
    ∃ out, buildConstituents provider d1 d2 = Except.ok out ∧
      out.map (fun c => c.symbol) = r1.map rowSymbol ++ r2.map rowSymbol ∧
      out.length = r1.length + r2.length ∧
      ∀ sym, (out.map (fun c => c.symbol)).count sym
        = (r1.map rowSymbol).count sym + (r2.map rowSymbol).count sym := by
  have hmap : ∀ (l : List RawRow) (q : QuoteMap),
      (l.map (toConstituent q)).map (fun c => c.symbol) = l.map rowSymbol := by
    intro l q
    rw [List.map_map]
    rfl
  refine ⟨_, buildConstituents_ok provider d1 d2 r1 r2 h1 h2, ?_, ?_, ?_⟩
  · rw [hmap, List.map_append]
  · rw [List.length_map, List.length_append]
  · intro sym
    rw [hmap, List.map_append, List.count_append]

/-- Witness for C8: the two fixture pages share the ticker "AAA", and the
built output contains it twice. -/
theorem claim_builder_concatenates_witness :
    ∃ out, buildConstituents emptyProvider pageOne pageTwo = Except.ok out ∧
      (out.map (fun c => c.symbol)).count "AAA" = 2 := by
  obtain ⟨out, hout, hsym, hlen, hcount⟩ :=
    claim_builder_concatenates emptyProvider pageOne pageTwo
      [[("Name", "Apple"), ("Symbol", "AAA")]] [[("Security", "Also"), ("Symbol", "AAA")]]
      rfl rfl
  refine ⟨out, hout, ?_⟩
  rw [hcount]
  decide

end FetchIndices
